import Mathlib

/-!
Verification development for the cross-chain relayer core: the Ethereum
beacon light client (src/ethereum/consensus/mod.rs) and the Bitcoin
relayer (src/bitcoin/relayer.rs), shallowly embedded in Lean.

Bytes are modelled as `Nat` (values < 256 where it matters), byte streams
as `List Nat`, machine integers as `Nat` with explicit bounds.  External
collaborators (the helios verification functions, the Bitcoin RPC node,
the sidechain application client, string parsers for addresses and
indices) are modelled as explicit function parameters, so theorems
quantify over every possible behaviour of those collaborators.
-/

/-! ## Byte-level encoding primitives

Modelled from the spec: the `ed` encoding crate is an external dependency
whose source is not part of this repository; the spec (section 6, "Binary
wire formats") fixes the layout as concatenated little-endian fixed-width
integers, raw fixed-size byte arrays, and options tagged with a 0x00/0x01
byte. -/

abbrev Bytes := List Nat

/-- `w`-byte little-endian encoding of `n`. -/
def encU : Nat → Nat → Bytes
  | 0, _ => []
  | w + 1, n => n % 256 :: encU w (n / 256)

/-- Little-endian decoding of a byte list. -/
def decU : Bytes → Nat
  | [] => 0
  | b :: rest => b + 256 * decU rest

/-- Read exactly `w` bytes from the front of a stream. -/
def readBytes (w : Nat) (s : Bytes) : Option (Bytes × Bytes) :=
  if w ≤ s.length then some (s.take w, s.drop w) else none

/-- Read a `w`-byte little-endian unsigned integer from a stream. -/
def readU (w : Nat) (s : Bytes) : Option (Nat × Bytes) :=
  (readBytes w s).map (fun p => (decU p.1, p.2))

/-! ## Ethereum light client: data model

These mirror the fields of `helios_consensus_core` types as used by
`LightClient` in src/ethereum/consensus/mod.rs. -/

/-- Beacon block header (helios `Header`): slot, proposer index and three
32-byte roots. -/
structure BeaconHeader where
  slot : Nat
  proposer_index : Nat
  parent_root : Bytes
  state_root : Bytes
  body_root : Bytes

def BeaconHeader.WF (h : BeaconHeader) : Prop :=
  h.slot < 2 ^ 64 ∧ h.proposer_index < 2 ^ 64 ∧
    h.parent_root.length = 32 ∧ h.state_root.length = 32 ∧ h.body_root.length = 32

/-- Sync committee: 512 48-byte BLS public keys plus one aggregate key. -/
structure SyncCommitteeM where
  pubkeys : List Bytes
  aggregate_pubkey : Bytes

def SyncCommitteeM.WF (sc : SyncCommitteeM) : Prop :=
  sc.pubkeys.length = 512 ∧ (∀ pk ∈ sc.pubkeys, pk.length = 48) ∧
    sc.aggregate_pubkey.length = 48

/-- Network parameters (`Network` in src/ethereum/consensus/mod.rs). -/
structure NetworkM where
  genesis_vals_root : Bytes
  deneb_fork_version : Nat
  genesis_time : Nat

def NetworkM.WF (n : NetworkM) : Prop :=
  n.genesis_vals_root.length = 32 ∧ n.deneb_fork_version < 2 ^ 32 ∧
    n.genesis_time < 2 ^ 64

/-- The helios `LightClientStore` held in `LightClient.lcs`. -/
structure LightClientStore where
  finalized_header : BeaconHeader
  current_sync_committee : SyncCommitteeM
  next_sync_committee : Option SyncCommitteeM
  optimistic_header : BeaconHeader
  previous_max_active_participants : Nat
  current_max_active_participants : Nat

/-- `LightClient` from src/ethereum/consensus/mod.rs: a store plus network
parameters. -/
structure LightClient where
  lcs : LightClientStore
  network : NetworkM

def LightClient.WF (lc : LightClient) : Prop :=
  lc.lcs.finalized_header.WF ∧ lc.lcs.current_sync_committee.WF ∧
    (∀ sc, lc.lcs.next_sync_committee = some sc → sc.WF) ∧
    lc.lcs.optimistic_header.WF ∧
    lc.lcs.previous_max_active_participants < 2 ^ 64 ∧
    lc.lcs.current_max_active_participants < 2 ^ 64 ∧
    lc.network.WF

/-! ## Ethereum light client: binary codec

Mirrors `encode_header`, `encode_sync_committee`, and the `Encode` /
`Decode` impls for `LightClient` and `Network`. -/

/-- `encode_header`: slot, proposer index, then the three roots. -/
def encodeHeader (h : BeaconHeader) : Bytes :=
  encU 8 h.slot ++ encU 8 h.proposer_index ++ h.parent_root ++ h.state_root ++ h.body_root

/-- `Header::decode`. -/
def decodeHeader (s : Bytes) : Option (BeaconHeader × Bytes) := do
  let (slot, s) ← readU 8 s
  let (pi, s) ← readU 8 s
  let (pr, s) ← readBytes 32 s
  let (sr, s) ← readBytes 32 s
  let (br, s) ← readBytes 32 s
  some (⟨slot, pi, pr, sr, br⟩, s)

/-- `encode_sync_committee`: the 512 pubkeys in order, then the aggregate. -/
def encodeSC (sc : SyncCommitteeM) : Bytes :=
  sc.pubkeys.flatten ++ sc.aggregate_pubkey

/-- The pubkey loop of `SyncCommittee::decode`: read `k` 48-byte keys. -/
def readPubkeys : Nat → Bytes → Option (List Bytes × Bytes)
  | 0, s => some ([], s)
  | k + 1, s => do
    let (pk, s) ← readBytes 48 s
    let (rest, s) ← readPubkeys k s
    some (pk :: rest, s)

/-- `SyncCommittee::decode`. -/
def decodeSC (s : Bytes) : Option (SyncCommitteeM × Bytes) := do
  let (pks, s) ← readPubkeys 512 s
  let (agg, s) ← readBytes 48 s
  some (⟨pks, agg⟩, s)

/-- Option encoding: tag byte then inner bytes, as produced by the
`Encode for LightClient` impl for `next_sync_committee`. -/
def encodeOptSC : Option SyncCommitteeM → Bytes
  | none => [0]
  | some sc => 1 :: encodeSC sc

/-- Option decoding: 0 is absent, 1 is present, anything else fails. -/
def decodeOptSC (s : Bytes) : Option (Option SyncCommitteeM × Bytes) :=
  match s with
  | 0 :: rest => some (none, rest)
  | 1 :: rest =>
    match decodeSC rest with
    | none => none
    | some (sc, r) => some (some sc, r)
  | _ => none

/-- Derived `Encode` for `Network`: fields in declaration order. -/
def encodeNetwork (n : NetworkM) : Bytes :=
  n.genesis_vals_root ++ encU 4 n.deneb_fork_version ++ encU 8 n.genesis_time

/-- Derived `Decode` for `Network`. -/
def decodeNetwork (s : Bytes) : Option (NetworkM × Bytes) := do
  let (root, s) ← readBytes 32 s
  let (fv, s) ← readU 4 s
  let (gt, s) ← readU 8 s
  some (⟨root, fv, gt⟩, s)

/-- `Encode for LightClient::encode_into`. -/
def encodeLightClient (lc : LightClient) : Bytes :=
  encodeHeader lc.lcs.finalized_header ++
    encodeSC lc.lcs.current_sync_committee ++
    encodeOptSC lc.lcs.next_sync_committee ++
    encodeHeader lc.lcs.optimistic_header ++
    encU 8 lc.lcs.previous_max_active_participants ++
    encU 8 lc.lcs.current_max_active_participants ++
    encodeNetwork lc.network

/-- `Decode for LightClient::decode`. -/
def decodeLightClient (s : Bytes) : Option (LightClient × Bytes) := do
  let (fin, s) ← decodeHeader s
  let (cur, s) ← decodeSC s
  let (next, s) ← decodeOptSC s
  let (opt, s) ← decodeHeader s
  let (prev, s) ← readU 8 s
  let (curm, s) ← readU 8 s
  let (net, s) ← decodeNetwork s
  some (⟨⟨fin, cur, next, opt, prev, curm⟩, net⟩, s)

/-! ## Ethereum light client: the `update` state machine -/

/-- Sync aggregate carried by an `Update`. -/
structure SyncAggregateM where
  sync_committee_bits : Bytes
  sync_committee_signature : Bytes

/-- The repository's `Update` type (src/ethereum/consensus/mod.rs). -/
structure Update where
  attested_header : BeaconHeader
  next_sync_committee : Option SyncCommitteeM
  next_sync_committee_branch : Option (List Bytes)
  finalized_header : BeaconHeader
  finality_branch : List Bytes
  sync_aggregate : SyncAggregateM
  signature_slot : Nat

/-- helios `Update` (every optional field required). -/
structure HeliosUpdate where
  attested_header : BeaconHeader
  next_sync_committee : SyncCommitteeM
  next_sync_committee_branch : List Bytes
  finalized_header : BeaconHeader
  finality_branch : List Bytes
  sync_aggregate : SyncAggregateM
  signature_slot : Nat

/-- helios `FinalityUpdate`. -/
structure HeliosFinalityUpdate where
  attested_header : BeaconHeader
  finalized_header : BeaconHeader
  finality_branch : List Bytes
  sync_aggregate : SyncAggregateM
  signature_slot : Nat

/-- `TryFrom<Update> for HeliosUpdate`: fails when `next_sync_committee`
or its branch is absent (checked in that order). -/
def tryIntoHeliosUpdate (u : Update) : Except String HeliosUpdate :=
  match u.next_sync_committee with
  | none => .error ("next_sync_committee is required")
  | some sc =>
    match u.next_sync_committee_branch with
    | none => .error ("next_sync_committee_branch is required")
    | some br =>
      .ok ⟨u.attested_header, sc, br, u.finalized_header, u.finality_branch,
        u.sync_aggregate, u.signature_slot⟩

/-- `From<Update> for HeliosFinalityUpdate` (total). -/
def toHeliosFinalityUpdate (u : Update) : HeliosFinalityUpdate :=
  ⟨u.attested_header, u.finalized_header, u.finality_branch, u.sync_aggregate,
    u.signature_slot⟩

/-- helios `Forks`, of which `update` only sets the deneb fork version,
from `network.deneb_fork_version.to_le_bytes()`. -/
structure Forks where
  deneb_fork_version : Bytes

def mkForks (v : Nat) : Forks := ⟨encU 4 v⟩

/-- The expected-slot computation in `LightClient::update`:
`(now_seconds - genesis_time) / 12` in `u64` arithmetic. -/
def expectedSlot (genesisTime now : Nat) : Nat :=
  (now - genesisTime) / 12

/-- The external helios verification and application functions consumed by
`LightClient::update`.  `verify_*` cannot mutate the store; `apply_*`
cannot fail.  Theorems quantify over every behaviour of these. -/
structure UpdateEnv where
  verifyUpdate : HeliosUpdate → Nat → LightClientStore → Bytes → Forks → Except String Unit
  applyUpdate : LightClientStore → HeliosUpdate → LightClientStore
  verifyFinalityUpdate : HeliosFinalityUpdate → Nat → LightClientStore → Bytes → Forks → Except String Unit
  applyFinalityUpdate : LightClientStore → HeliosFinalityUpdate → LightClientStore

/-- `LightClient::update`.  The outer `Option` models panics: `none` for
the `u64` underflow of `now_seconds - genesis_time` when
`now_seconds < genesis_time`, and for the `.unwrap()` on
`update.try_into()` when the committee is present but its branch absent.
The returned pair carries the `Result<()>` and the (possibly mutated)
client, mirroring the `&mut self` receiver. -/
def LightClient.update (env : UpdateEnv) (lc : LightClient) (u : Update)
    (now : Nat) : Option (Except String Unit × LightClient) :=
  if now < lc.network.genesis_time then none
  else
    let es := expectedSlot lc.network.genesis_time now
    let forks := mkForks lc.network.deneb_fork_version
    let root := lc.network.genesis_vals_root
    if u.next_sync_committee.isSome then
      match tryIntoHeliosUpdate u with
      | .error _ => none
      | .ok hu =>
        match env.verifyUpdate hu es lc.lcs root forks with
        | .error e => some (.error ("Invalid update: " ++ e), lc)
        | .ok _ => some (.ok (), { lc with lcs := env.applyUpdate lc.lcs hu })
    else
      let fu := toHeliosFinalityUpdate u
      match env.verifyFinalityUpdate fu es lc.lcs root forks with
      | .error e => some (.error ("Invalid update: " ++ e), lc)
      | .ok _ => some (.ok (), { lc with lcs := env.applyFinalityUpdate lc.lcs fu })

/-- `LightClient::slot`. -/
def LightClient.slot (lc : LightClient) : Nat :=
  lc.lcs.finalized_header.slot

/-- `LightClient::state_root`. -/
def LightClient.state_root (lc : LightClient) : Bytes :=
  lc.lcs.finalized_header.state_root

/-! ## Substring matching

Rust's `str::contains(pattern)` as used for the idempotency filters in
the relayer: true when `pat` occurs contiguously in `hay`. -/

def isPfxOf : List Char → List Char → Bool
  | [], _ => true
  | _ :: _, [] => false
  | a :: as, b :: bs => a == b && isPfxOf as bs

def containsSub (pat : List Char) : List Char → Bool
  | [] => isPfxOf pat []
  | c :: t => isPfxOf pat (c :: t) || containsSub pat t

/-- `hay.contains(pat)`. -/
def hasSubstr (hay pat : String) : Bool :=
  containsSub pat.toList hay.toList

/-! ## WatchedScripts (src/bitcoin/relayer.rs)

Scripts and addresses are identified by `Nat`; the `scripts` HashMap is
an association list from script to `(address, sigset_index)`, and the
`sigsets` BTreeMap is an association list ordered by ascending index. -/

/-- Modelled from the spec: `SignatorySet` lives in the repository's
checkpoint module, which is not part of the provided sources.  Per the
spec's data model it is identified by a monotone `u32` index, carries a
`deposit_timeout` in UNIX seconds, and provides a fallible pure function
`output_script(dest_address) → Script`. -/
structure SignatorySet where
  index : Nat
  deposit_timeout : Nat
  output_script : Nat → Except String Nat

abbrev ScriptsMap := List (Nat × Nat × Nat)

abbrev SigsetEntry := Nat × SignatorySet × List Nat

structure WatchedScripts where
  scripts : ScriptsMap
  sigsets : List SigsetEntry

def WatchedScripts.new : WatchedScripts := ⟨[], []⟩

/-- HashMap lookup on the `scripts` association list. -/
def scrLookup (s : Nat) : ScriptsMap → Option (Nat × Nat)
  | [] => none
  | (k, v) :: rest => if k = s then some v else scrLookup s rest

/-- `HashMap::remove` on the `scripts` association list. -/
def scrErase (s : Nat) : ScriptsMap → ScriptsMap
  | [] => []
  | (k, v) :: rest => if k = s then scrErase s rest else (k, v) :: scrErase s rest

/-- BTreeMap lookup on the `sigsets` association list. -/
def sigLookup (i : Nat) : List SigsetEntry → Option (SignatorySet × List Nat)
  | [] => none
  | (k, v) :: rest => if k = i then some v else sigLookup i rest

/-- `sigsets.entry(idx).or_insert((sigset, vec![])).1.push(addr)`:
push onto an existing entry, or insert a fresh entry in key order. -/
def entryPush (i : Nat) (ss : SignatorySet) (a : Nat) :
    List SigsetEntry → List SigsetEntry
  | [] => [(i, ss, [a])]
  | (j, t, l) :: rest =>
    if i < j then (i, ss, [a]) :: (j, t, l) :: rest
    else if i = j then (j, t, l ++ [a]) :: rest
    else (j, t, l) :: entryPush i ss a rest

/-- `WatchedScripts::insert`: derive the script, no-op returning `false`
when it is already watched, otherwise record it and return `true`. -/
def WatchedScripts.insert (w : WatchedScripts) (addr : Nat)
    (ss : SignatorySet) : Except String (Bool × WatchedScripts) :=
  match ss.output_script addr with
  | .error e => .error e
  | .ok script =>
    if (scrLookup script w.scripts).isSome then .ok (false, w)
    else
      .ok (true, ⟨w.scripts ++ [(script, addr, ss.index)],
        entryPush ss.index ss addr w.sigsets⟩)

/-- Inner loop of `remove_expired`: recompute each address's script and
remove it from the scripts map. -/
def removeAddrs (ss : SignatorySet) : List Nat → ScriptsMap → Except String ScriptsMap
  | [], m => .ok m
  | a :: rest, m =>
    match ss.output_script a with
    | .error e => .error e
    | .ok s => removeAddrs ss rest (scrErase s m)

/-- Outer loop of `remove_expired`: walk sigsets in ascending index
order, breaking at the first whose `deposit_timeout` exceeds `now`. -/
def removeSigsetsGo (now : Nat) : List SigsetEntry → ScriptsMap → Except String ScriptsMap
  | [], m => .ok m
  | (_, ss, addrs) :: rest, m =>
    if now < ss.deposit_timeout then .ok m
    else
      match removeAddrs ss addrs m with
      | .error e => .error e
      | .ok m2 => removeSigsetsGo now rest m2

/-- `WatchedScripts::remove_expired` at time `now` (the Rust code reads
`time_now()`; the clock is passed explicitly here).  Only `scripts` is
mutated; `sigsets` is left untouched by the source. -/
def WatchedScripts.remove_expired (w : WatchedScripts) (now : Nat) :
    Except String WatchedScripts :=
  match removeSigsetsGo now w.sigsets w.scripts with
  | .error e => .error e
  | .ok m => .ok ⟨m, w.sigsets⟩

/-- Reference form of the expired sweep with no early break, used to
state that the loop stops exactly at the first non-expired sigset. -/
def removeAllEntries : List SigsetEntry → ScriptsMap → Except String ScriptsMap
  | [], m => .ok m
  | (_, ss, addrs) :: rest, m =>
    match removeAddrs ss addrs m with
    | .error e => .error e
    | .ok m2 => removeAllEntries rest m2

/-- Well-formedness of the index, from the spec's data-model invariants:
every scripts entry is backed by its sigset entry and re-derives to its
own key, every recorded address derives successfully, and the sigsets
map is strictly ordered by index. -/
def WSInv (w : WatchedScripts) : Prop :=
  (∀ e ∈ w.scripts, ∃ ss addrs, sigLookup e.2.2 w.sigsets = some (ss, addrs) ∧
      e.2.1 ∈ addrs ∧ ss.output_script e.2.1 = .ok e.1) ∧
  (∀ e ∈ w.sigsets, ∀ a ∈ e.2.2, ∃ s, e.2.1.output_script a = .ok s) ∧
  List.Pairwise (fun x y => x.1 < y.1) w.sigsets

/-! ## WatchedScriptStore (src/bitcoin/relayer.rs)

The on-disk log is a list of lines, each a list of characters.  The
address and index parsers (`str::parse`) and the address `Display`
rendering are external, so they are passed as functions. -/

/-- Rust's `line.split(',')` on a list of characters. -/
def splitComma : List Char → List (List Char)
  | [] => [[]]
  | c :: rest =>
    if c = ',' then [] :: splitComma rest
    else
      match splitComma rest with
      | [] => [[c]]
      | h :: t => (c :: h) :: t

/-- One line as written by `WatchedScriptStore::write`:
`"<address>,<sigset_index>"`. -/
def formatLine (showAddr : Nat → List Char) (a i : Nat) : List Char :=
  showAddr a ++ [','] ++ Nat.toDigits 10 i

/-- BTreeMap insert used to build the index-to-sigset map in
`maybe_load` from `checkpoint_client.all()`. -/
def btInsert (i : Nat) (ss : SignatorySet) :
    List (Nat × SignatorySet) → List (Nat × SignatorySet)
  | [] => [(i, ss)]
  | (j, t) :: rest =>
    if i < j then (i, ss) :: (j, t) :: rest
    else if i = j then (i, ss) :: rest
    else (j, t) :: btInsert i ss rest

def buildSigsets (cps : List (Nat × SignatorySet)) : List (Nat × SignatorySet) :=
  cps.foldl (fun m e => btInsert e.1 e.2 m) []

def bmLookup (i : Nat) : List (Nat × SignatorySet) → Option SignatorySet
  | [] => none
  | (k, v) :: rest => if k = i then some v else bmLookup i rest

/-- Processing of one line of the store file in `maybe_load`: parse the
sigset index from `items[1]` (error on failure), skip silently when the
index is unknown, then parse the address from `items[0]` (error on
failure) and insert.  The outer `Option` models the `items[1]` indexing
panic on a line with no comma. -/
def processLine (sigsets : List (Nat × SignatorySet))
    (pIdx pAddr : List Char → Option Nat) (w : WatchedScripts)
    (line : List Char) : Option (Except String WatchedScripts) :=
  match splitComma line with
  | first :: second :: _ =>
    match pIdx second with
    | none => some (.error ("Could not parse sigset index"))
    | some idx =>
      match bmLookup idx sigsets with
      | none => some (.ok w)
      | some ss =>
        match pAddr first with
        | none => some (.error ("Could not parse address"))
        | some addr =>
          match w.insert addr ss with
          | .error e => some (.error e)
          | .ok (_, w2) => some (.ok w2)
  | _ => none

/-- The line loop of `maybe_load`. -/
def processLines (sigsets : List (Nat × SignatorySet))
    (pIdx pAddr : List Char → Option Nat) (w : WatchedScripts) :
    List (List Char) → Option (Except String WatchedScripts)
  | [] => some (.ok w)
  | l :: rest =>
    match processLine sigsets pIdx pAddr w l with
    | none => none
    | some (.error e) => some (.error e)
    | some (.ok w2) => processLines sigsets pIdx pAddr w2 rest

/-- `WatchedScriptStore::maybe_load`: absent file is fine, otherwise
process every line against the checkpoint map, then drop expired
entries. -/
def maybeLoad (now : Nat) (cps : List (Nat × SignatorySet))
    (pIdx pAddr : List Char → Option Nat)
    (fileContents : Option (List (List Char))) :
    Option (Except String WatchedScripts) :=
  match fileContents with
  | none => some (.ok WatchedScripts.new)
  | some lines =>
    match processLines (buildSigsets cps) pIdx pAddr WatchedScripts.new lines with
    | none => none
    | some (.error e) => some (.error e)
    | some (.ok w) => some (w.remove_expired now)

structure WatchedScriptStore where
  scripts : WatchedScripts
  file : List (List Char)

/-- `WatchedScriptStore::open`: load, sweep, then recreate the file with
one line per surviving `(address, sigset_index)` value (compaction). -/
def WatchedScriptStore.open (now : Nat) (cps : List (Nat × SignatorySet))
    (pIdx pAddr : List Char → Option Nat) (showAddr : Nat → List Char)
    (fileContents : Option (List (List Char))) :
    Option (Except String WatchedScriptStore) :=
  match maybeLoad now cps pIdx pAddr fileContents with
  | none => none
  | some (.error e) => some (.error e)
  | some (.ok w) =>
    some (.ok ⟨w, w.scripts.map (fun e => formatLine showAddr e.2.1 e.2.2)⟩)

/-- `WatchedScriptStore::insert`: delegate to the index and append one
line exactly when the script was newly added. -/
def WatchedScriptStore.insert (showAddr : Nat → List Char)
    (st : WatchedScriptStore) (addr : Nat) (ss : SignatorySet) :
    Except String WatchedScriptStore :=
  match st.scripts.insert addr ss with
  | .error e => .error e
  | .ok (added, w) =>
    .ok ⟨w, if added then st.file ++ [formatLine showAddr addr ss.index] else st.file⟩

/-! ## Deposit relay (src/bitcoin/relayer.rs, `maybe_relay_deposit`)

Transactions, block hashes, proofs and destinations are identified by
`Nat`; the sidechain application client and the Bitcoin RPC node are
abstract fallible functions. -/

structure OutputMatch where
  sigset_index : Nat
  vout : Nat
  dest : Nat

/-- The argument tuple passed to `app_client.relay_deposit`. -/
structure RelayArgs where
  tx : Nat
  height : Nat
  proof : Nat
  vout : Nat
  sigset_index : Nat
  dest : Nat

structure DepositEnv where
  processedContains : Nat × Nat → Except String Bool
  getTxOutProof : Nat → Nat → Except String Nat
  reencodeTx : Nat → Except String Nat
  relayDeposit : RelayArgs → Except String Unit

def dustMsg1 : String := ("Deposit amount is below minimum")

def dustMsg2 : String := ("Deposit amount is too small to pay its spending fee")

/-- `Relayer::maybe_relay_deposit`.  Returns the list of submissions made
to `relay_deposit` (empty or a single call), so that "returns without
submitting" is observable.  `getTxOutProof` covers the proof fetch plus
`MerkleBlock` decode, `reencodeTx` the consensus encode/decode round trip
of the transaction; each `?` propagates. -/
def maybeRelayDeposit (env : DepositEnv) (tx : Nat) (height : Nat)
    (blockHash : Nat) (out : OutputMatch) : Except String (List RelayArgs) :=
  match env.processedContains (tx, out.vout) with
  | .error e => .error e
  | .ok true => .ok []
  | .ok false =>
    match env.getTxOutProof tx blockHash with
    | .error e => .error e
    | .ok proof =>
      match env.reencodeTx tx with
      | .error e => .error e
      | .ok tx2 =>
        let args : RelayArgs := ⟨tx2, height, proof, out.vout, out.sigset_index, out.dest⟩
        match env.relayDeposit args with
        | .error e =>
          if hasSubstr e dustMsg1 || hasSubstr e dustMsg2 then .ok [args]
          else .error e
        | .ok _ => .ok [args]

/-! ## Checkpoint relay (src/bitcoin/relayer.rs, `relay_checkpoints`) -/

structure CheckpointEnv where
  encodeTx : Nat → Except String Bytes
  sendRawTransaction : Bytes → Except String Nat

def benignMsg1 : String := ("bad-txns-inputs-missingorspent")

def benignMsg2 : String := ("Transaction already in block chain")

/-- The per-iteration broadcast loop of `relay_checkpoints`: encode and
send each completed checkpoint transaction, treating the two benign
error texts as success and propagating anything else. -/
def broadcastTxs (env : CheckpointEnv) : List Nat → Except String Unit
  | [] => .ok ()
  | tx :: rest =>
    match env.encodeTx tx with
    | .error e => .error e
    | .ok bytes =>
      match env.sendRawTransaction bytes with
      | .ok _ => broadcastTxs env rest
      | .error e =>
        if hasSubstr e benignMsg1 then broadcastTxs env rest
        else if hasSubstr e benignMsg2 then broadcastTxs env rest
        else .error e

/-! ## Header batches (src/bitcoin/relayer.rs, `get_header_batch`) -/

structure HeaderInfo where
  hash : Nat
  height : Nat
  nextBlockHash : Option Nat

structure BlockHeader where
  prevBlockhash : Nat
  merkleRoot : Nat

/-- `WrappedHeader::from_header(&header, height)`. -/
structure WrappedHeader where
  height : Nat
  header : BlockHeader

/-- The Bitcoin full node as seen by `get_header_batch`.  `headerHash`
is the block-hash function on headers (`BlockHeader::block_hash`). -/
structure NodeEnv where
  getBlockHeaderInfo : Nat → Except String HeaderInfo
  getBlockHeader : Nat → Except String BlockHeader
  headerHash : BlockHeader → Nat

def HEADER_BATCH_SIZE : Nat := 25

/-- The fetch loop of `get_header_batch`: follow `next_block_hash` up to
`fuel` times, fetching each header at the advanced cursor. -/
def getHeaderBatchGo (env : NodeEnv) : Nat → HeaderInfo → Except String (List WrappedHeader)
  | 0, _ => .ok []
  | fuel + 1, cursor =>
    match cursor.nextBlockHash with
    | none => .ok []
    | some nextHash =>
      match env.getBlockHeaderInfo nextHash with
      | .error e => .error e
      | .ok c =>
        match env.getBlockHeader c.hash with
        | .error e => .error e
        | .ok hd =>
          match getHeaderBatchGo env fuel c with
          | .error e => .error e
          | .ok rest => .ok (⟨c.height, hd⟩ :: rest)

/-- `Relayer::get_header_batch` starting from the common-ancestor hash. -/
def getHeaderBatch (env : NodeEnv) (fromHash : Nat) : Except String (List WrappedHeader) :=
  match env.getBlockHeaderInfo fromHash with
  | .error e => .error e
  | .ok cursor => getHeaderBatchGo env HEADER_BATCH_SIZE cursor

/-- Consistency of the full node's view: header-info lookups echo their
hash, header lookups return the header hashing to the requested hash,
and `next_block_hash` pointers invert `prev_blockhash`. -/
def NodeConsistent (env : NodeEnv) : Prop :=
  (∀ h i, env.getBlockHeaderInfo h = .ok i → i.hash = h) ∧
  (∀ h b, env.getBlockHeader h = .ok b → env.headerHash b = h) ∧
  (∀ h i n b, env.getBlockHeaderInfo h = .ok i → i.nextBlockHash = some n →
    env.getBlockHeader n = .ok b → b.prevBlockhash = h)

/-! ## Concrete instances used to exercise the theorems -/

def hdr0 : BeaconHeader := ⟨0, 0, [], [], []⟩

def sc0 : SyncCommitteeM := ⟨[], []⟩

def sa0 : SyncAggregateM := ⟨[], []⟩

def lcW : LightClient := ⟨⟨hdr0, sc0, none, hdr0, 0, 0⟩, ⟨[], 0, 0⟩⟩

def lcGW : LightClient := ⟨⟨hdr0, sc0, none, hdr0, 0, 0⟩, ⟨[], 0, 50⟩⟩

def envUOk : UpdateEnv :=
  ⟨fun _ _ _ _ _ => .ok (), fun s _ => s, fun _ _ _ _ _ => .ok (), fun s _ => s⟩

def envUErr : UpdateEnv :=
  ⟨fun _ _ _ _ _ => .error ("bad"), fun s _ => s,
    fun _ _ _ _ _ => .error ("bad"), fun s _ => s⟩

def uFinW : Update := ⟨hdr0, none, none, hdr0, [], sa0, 0⟩

def uFullW : Update := ⟨hdr0, some sc0, some [], hdr0, [], sa0, 0⟩

def hdrZ : BeaconHeader :=
  ⟨0, 0, List.replicate 32 0, List.replicate 32 0, List.replicate 32 0⟩

def scZ : SyncCommitteeM :=
  ⟨List.replicate 512 (List.replicate 48 0), List.replicate 48 0⟩

def lcZ : LightClient :=
  ⟨⟨hdrZ, scZ, none, hdrZ, 0, 0⟩, ⟨List.replicate 32 0, 0, 0⟩⟩

def ssEx : SignatorySet := ⟨0, 10, fun a => .ok a⟩

def wEx : WatchedScripts := ⟨[(5, 5, 0)], [(0, ssEx, [5])]⟩

def ssEx2 : SignatorySet := ⟨7, 100, fun a => .ok a⟩

def showAddrW : Nat → List Char := fun a => Nat.toDigits 10 a

def stEx : WatchedScriptStore := ⟨WatchedScripts.new, []⟩

def pIdxW : List Char → Option Nat := fun s => if s = [Char.ofNat 55] then some 7 else none

def pAddrW : List Char → Option Nat := fun s => if s = [Char.ofNat 97] then some 5 else none

def envDepA : DepositEnv :=
  ⟨fun _ => .ok true, fun _ _ => .ok 0, fun t => .ok t, fun _ => .ok ()⟩

def envDepB : DepositEnv :=
  ⟨fun _ => .ok false, fun _ _ => .ok 0, fun t => .ok t,
    fun _ => .error ("Deposit amount is below minimum")⟩

def envDepC : DepositEnv :=
  ⟨fun _ => .ok false, fun _ _ => .ok 0, fun t => .ok t, fun _ => .error ("boom")⟩

def outW : OutputMatch := ⟨7, 1, 9⟩

def envCkA : CheckpointEnv :=
  ⟨fun _ => .ok [], fun _ => .error ("tx bad-txns-inputs-missingorspent")⟩

def envCkB : CheckpointEnv :=
  ⟨fun _ => .ok [], fun _ => .error ("boom")⟩

def envNodeW : NodeEnv :=
  ⟨fun h => .ok ⟨h, h, if h = 0 then some 1 else none⟩,
    fun h => if h = 0 then .error ("no header") else .ok ⟨h - 1, 0⟩,
    fun b => b.prevBlockhash + 1⟩

/-! ## Codec lemmas -/

theorem encU_length (w n : Nat) : (encU w n).length = w := by
  induction w generalizing n with
  | zero => rfl
  | succ w ih => simp [encU, ih]

theorem decU_encU {w n : Nat} (h : n < 256 ^ w) : decU (encU w n) = n := by
  induction w generalizing n with
  | zero =>
    simp [pow_zero] at h
    simp [encU, decU, h]
  | succ w ih =>
    have hdiv : n / 256 < 256 ^ w := by
      rw [Nat.div_lt_iff_lt_mul (by norm_num : 0 < 256)]
      calc n < 256 ^ (w + 1) := h
        _ = 256 ^ w * 256 := by rw [pow_succ]
    simp [encU, decU, ih hdiv, Nat.mod_add_div]

theorem readBytes_exact {w : Nat} {l r : Bytes} (h : l.length = w) :
    readBytes w (l ++ r) = some (l, r) := by
  subst h
  simp [readBytes, List.take_left, List.drop_left]

theorem readU_exact {w n : Nat} {r : Bytes} (h : n < 256 ^ w) :
    readU w (encU w n ++ r) = some (n, r) := by
  simp [readU, readBytes_exact (encU_length w n), decU_encU h]

theorem lt_256_pow_8 {n : Nat} (h : n < 2 ^ 64) : n < 256 ^ 8 := by
  calc n < 2 ^ 64 := h
    _ ≤ 256 ^ 8 := by norm_num

theorem lt_256_pow_4 {n : Nat} (h : n < 2 ^ 32) : n < 256 ^ 4 := by
  calc n < 2 ^ 32 := h
    _ ≤ 256 ^ 4 := by norm_num

theorem decodeHeader_enc {h : BeaconHeader} {r : Bytes} (hw : h.WF) :
    decodeHeader (encodeHeader h ++ r) = some (h, r) := by
  obtain ⟨h1, h2, h3, h4, h5⟩ := hw
  simp only [encodeHeader, List.append_assoc]
  simp [decodeHeader, readU_exact (lt_256_pow_8 h1), readU_exact (lt_256_pow_8 h2),
    readBytes_exact h3, readBytes_exact h4, readBytes_exact h5]

theorem readPubkeys_exact {pks : List Bytes} {r : Bytes}
    (h48 : ∀ pk ∈ pks, pk.length = 48) :
    readPubkeys pks.length (pks.flatten ++ r) = some (pks, r) := by
  induction pks generalizing r with
  | nil => simp [readPubkeys]
  | cons pk rest ih =>
    have hpk : pk.length = 48 := h48 pk (by simp)
    have hrest : ∀ q ∈ rest, q.length = 48 := fun q hq => h48 q (by simp [hq])
    simp only [List.length_cons, List.flatten_cons, List.append_assoc]
    simp [readPubkeys, readBytes_exact hpk, ih hrest]

theorem decodeSC_enc {sc : SyncCommitteeM} {r : Bytes} (hw : sc.WF) :
    decodeSC (encodeSC sc ++ r) = some (sc, r) := by
  obtain ⟨hlen, h48, hagg⟩ := hw
  simp only [encodeSC, List.append_assoc]
  have h1 := readPubkeys_exact (r := sc.aggregate_pubkey ++ r) h48
  rw [hlen] at h1
  simp [decodeSC, h1, readBytes_exact hagg]

theorem decodeOptSC_enc {osc : Option SyncCommitteeM} {r : Bytes}
    (hw : ∀ sc, osc = some sc → sc.WF) :
    decodeOptSC (encodeOptSC osc ++ r) = some (osc, r) := by
  cases osc with
  | none => rfl
  | some sc =>
    simp only [encodeOptSC, List.cons_append]
    simp [decodeOptSC, decodeSC_enc (hw sc rfl)]

theorem decodeNetwork_enc {n : NetworkM} {r : Bytes} (hw : n.WF) :
    decodeNetwork (encodeNetwork n ++ r) = some (n, r) := by
  obtain ⟨h1, h2, h3⟩ := hw
  simp only [encodeNetwork, List.append_assoc]
  simp [decodeNetwork, readBytes_exact h1, readU_exact (lt_256_pow_4 h2), readU_exact (lt_256_pow_8 h3)]

theorem decodeLightClient_enc {lc : LightClient} {r : Bytes} (hw : lc.WF) :
    decodeLightClient (encodeLightClient lc ++ r) = some (lc, r) := by
  obtain ⟨h1, h2, h3, h4, h5, h6, h7⟩ := hw
  simp only [encodeLightClient, List.append_assoc]
  simp [decodeLightClient, decodeHeader_enc h1, decodeSC_enc h2,
    decodeOptSC_enc h3, decodeHeader_enc h4, readU_exact (lt_256_pow_8 h5),
    readU_exact (lt_256_pow_8 h6),
    decodeNetwork_enc h7]

/-- Claim C7: encoding a `LightClient` with the fixed layout and decoding
the produced bytes yields the identical value, including the
option-encoded `next_sync_committee` and the `Network` fields. -/
theorem C7_lightclient_roundtrip (lc : LightClient) (hw : lc.WF) :
    decodeLightClient (encodeLightClient lc) = some (lc, []) := by
  have h := decodeLightClient_enc (r := []) hw
  simpa using h

theorem C7_lightclient_roundtrip_witness :
    decodeLightClient (encodeLightClient lcZ) = some (lcZ, []) :=
  C7_lightclient_roundtrip lcZ (by
    refine ⟨?_, ?_, ?_, ?_, ?_, ?_, ?_⟩ <;>
      first
        | (intro sc h; simp [lcZ] at h)
        | norm_num [lcZ, hdrZ, scZ, BeaconHeader.WF, SyncCommitteeM.WF,
            NetworkM.WF, List.mem_replicate])

/-- Claim C1: whenever `LightClient::update` returns an error (for any
behaviour of the helios verifiers), the store is unchanged; in particular
`slot()` and `state_root()` are the same after the failed call. -/
theorem C1_update_error_leaves_store (env : UpdateEnv) (lc : LightClient)
    (u : Update) (now : Nat) (e : String) (lc2 : LightClient)
    (h : LightClient.update env lc u now = some (.error e, lc2)) :
    lc2 = lc ∧ lc2.slot = lc.slot ∧ lc2.state_root = lc.state_root := by
  simp only [LightClient.update] at h
  split at h
  · exact absurd h (by simp)
  · split at h
    · split at h
      · exact absurd h (by simp)
      · split at h
        · simp only [Option.some.injEq, Prod.mk.injEq] at h
          obtain ⟨-, h2⟩ := h
          subst h2
          exact ⟨rfl, rfl, rfl⟩
        · exact absurd h (by simp)
    · split at h
      · simp only [Option.some.injEq, Prod.mk.injEq] at h
        obtain ⟨-, h2⟩ := h
        subst h2
        exact ⟨rfl, rfl, rfl⟩
      · exact absurd h (by simp)

theorem C1_update_error_leaves_store_witness :
    lcW = lcW ∧ LightClient.slot lcW = LightClient.slot lcW ∧
      LightClient.state_root lcW = LightClient.state_root lcW :=
  C1_update_error_leaves_store envUErr lcW uFinW 100
    ("Invalid update: " ++ "bad") lcW rfl

/-- Claim C2: when `next_sync_committee` and its Merkle branch are both
present, `update` validates via `verify_update` and, on success, applies
via `apply_update`; when `next_sync_committee` is absent it validates via
`verify_finality_update` and, on success, applies via
`apply_finality_update`. -/
theorem C2_update_dispatch (env : UpdateEnv) (lc : LightClient) (u : Update)
    (now : Nat) (hg : lc.network.genesis_time ≤ now) :
    (∀ sc br, u.next_sync_committee = some sc →
      u.next_sync_committee_branch = some br →
      ∃ hu, tryIntoHeliosUpdate u = .ok hu ∧
        (∀ e, env.verifyUpdate hu (expectedSlot lc.network.genesis_time now)
            lc.lcs lc.network.genesis_vals_root
            (mkForks lc.network.deneb_fork_version) = .error e →
          LightClient.update env lc u now =
            some (.error ("Invalid update: " ++ e), lc)) ∧
        (env.verifyUpdate hu (expectedSlot lc.network.genesis_time now)
            lc.lcs lc.network.genesis_vals_root
            (mkForks lc.network.deneb_fork_version) = .ok () →
          LightClient.update env lc u now =
            some (.ok (), { lc with lcs := env.applyUpdate lc.lcs hu }))) ∧
    (u.next_sync_committee = none →
      (∀ e, env.verifyFinalityUpdate (toHeliosFinalityUpdate u)
          (expectedSlot lc.network.genesis_time now) lc.lcs
          lc.network.genesis_vals_root
          (mkForks lc.network.deneb_fork_version) = .error e →
        LightClient.update env lc u now =
          some (.error ("Invalid update: " ++ e), lc)) ∧
      (env.verifyFinalityUpdate (toHeliosFinalityUpdate u)
          (expectedSlot lc.network.genesis_time now) lc.lcs
          lc.network.genesis_vals_root
          (mkForks lc.network.deneb_fork_version) = .ok () →
        LightClient.update env lc u now =
          some (.ok (), { lc with
            lcs := env.applyFinalityUpdate lc.lcs (toHeliosFinalityUpdate u) }))) := by
  have hng : ¬ now < lc.network.genesis_time := not_lt.2 hg
  constructor
  · intro sc br hsc hbr
    refine ⟨⟨u.attested_header, sc, br, u.finalized_header, u.finality_branch,
      u.sync_aggregate, u.signature_slot⟩, ?_, ?_, ?_⟩
    · simp [tryIntoHeliosUpdate, hsc, hbr]
    · intro e hv
      simp [LightClient.update, hng, hsc, tryIntoHeliosUpdate, hbr, hv]
    · intro hv
      simp [LightClient.update, hng, hsc, tryIntoHeliosUpdate, hbr, hv]
  · intro hnone
    constructor
    · intro e hv
      simp [LightClient.update, hng, hnone, hv]
    · intro hv
      simp [LightClient.update, hng, hnone, hv]

theorem C2_update_dispatch_witness :
    ∃ hu, tryIntoHeliosUpdate uFullW = .ok hu ∧
      (∀ e, envUOk.verifyUpdate hu (expectedSlot lcW.network.genesis_time 100)
          lcW.lcs lcW.network.genesis_vals_root
          (mkForks lcW.network.deneb_fork_version) = .error e →
        LightClient.update envUOk lcW uFullW 100 =
          some (.error ("Invalid update: " ++ e), lcW)) ∧
      (envUOk.verifyUpdate hu (expectedSlot lcW.network.genesis_time 100)
          lcW.lcs lcW.network.genesis_vals_root
          (mkForks lcW.network.deneb_fork_version) = .ok () →
        LightClient.update envUOk lcW uFullW 100 =
          some (.ok (), { lcW with lcs := envUOk.applyUpdate lcW.lcs hu })) :=
  (C2_update_dispatch envUOk lcW uFullW 100 (by decide)).1 sc0 [] rfl rfl

/-- Claim C10: `update` is only well defined when
`now_seconds >= genesis_time`: below it, the unsigned subtraction panics
(modelled as `none`); at or above it, the expected slot used by `update`
equals `(now - genesis_time) / 12` in exact integer arithmetic. -/
theorem C10_update_genesis_guard (env : UpdateEnv) (lc : LightClient)
    (u : Update) (now : Nat) :
    (now < lc.network.genesis_time → LightClient.update env lc u now = none) ∧
    (lc.network.genesis_time ≤ now →
      (expectedSlot lc.network.genesis_time now : Int) =
        ((now : Int) - (lc.network.genesis_time : Int)) / 12) := by
  constructor
  · intro h
    simp [LightClient.update, h]
  · intro h
    simp only [expectedSlot]
    rw [Int.natCast_div, Nat.cast_sub h]
    norm_num

theorem C10_update_genesis_guard_witness :
    LightClient.update envUOk lcGW uFinW 20 = none ∧
      (expectedSlot lcGW.network.genesis_time 170 : Int) =
        ((170 : Int) - (lcGW.network.genesis_time : Int)) / 12 :=
  ⟨(C10_update_genesis_guard envUOk lcGW uFinW 20).1 (by decide),
    (C10_update_genesis_guard envUOk lcGW uFinW 170).2 (by decide)⟩

/-! ## WatchedScripts lemmas -/

theorem scrLookup_scrErase (s t : Nat) (m : ScriptsMap) :
    scrLookup s (scrErase t m) = if s = t then none else scrLookup s m := by
  induction m with
  | nil => simp [scrErase, scrLookup]
  | cons e rest ih =>
    obtain ⟨k, v⟩ := e
    by_cases hkt : k = t <;> by_cases hst : s = t <;> by_cases hks : k = s <;>
      simp_all [scrErase, scrLookup]

theorem scrLookup_mem {s : Nat} {m : ScriptsMap} {v : Nat × Nat}
    (h : scrLookup s m = some v) : (s, v) ∈ m := by
  induction m with
  | nil => simp [scrLookup] at h
  | cons e rest ih =>
    obtain ⟨k, v'⟩ := e
    by_cases hk : k = s
    · subst hk
      simp [scrLookup] at h
      subst h
      exact List.mem_cons_self _ _
    · simp only [scrLookup, if_neg hk] at h
      exact List.mem_cons_of_mem _ (ih h)

theorem sigLookup_mem {i : Nat} {l : List SigsetEntry} {v : SignatorySet × List Nat}
    (h : sigLookup i l = some v) : (i, v) ∈ l := by
  induction l with
  | nil => simp [sigLookup] at h
  | cons e rest ih =>
    obtain ⟨k, v'⟩ := e
    by_cases hk : k = i
    · subst hk
      simp [sigLookup] at h
      subst h
      exact List.mem_cons_self _ _
    · simp only [sigLookup, if_neg hk] at h
      exact List.mem_cons_of_mem _ (ih h)

theorem removeAddrs_sub {ss : SignatorySet} {addrs : List Nat}
    {m m2 : ScriptsMap} {s : Nat} {v : Nat × Nat}
    (h : removeAddrs ss addrs m = .ok m2) (hl : scrLookup s m2 = some v) :
    scrLookup s m = some v ∧ ∀ a ∈ addrs, ss.output_script a ≠ .ok s := by
  induction addrs generalizing m with
  | nil =>
    simp only [removeAddrs, Except.ok.injEq] at h
    subst h
    exact ⟨hl, by simp⟩
  | cons a rest ih =>
    simp only [removeAddrs] at h
    cases hos : ss.output_script a with
    | error e => rw [hos] at h; cases h
    | ok t =>
      rw [hos] at h
      obtain ⟨h1, h2⟩ := ih h
      rw [scrLookup_scrErase] at h1
      by_cases hst : s = t
      · rw [if_pos hst] at h1; cases h1
      · rw [if_neg hst] at h1
        refine ⟨h1, ?_⟩
        intro a2 ha2
        rcases List.mem_cons.1 ha2 with rfl | hmem
        · rw [hos]
          intro hcontra
          exact hst (by injection hcontra with h3; exact h3.symm)
        · exact h2 a2 hmem

theorem removeAllEntries_sub {l : List SigsetEntry} {m m2 : ScriptsMap}
    {s : Nat} {v : Nat × Nat}
    (h : removeAllEntries l m = .ok m2) (hl : scrLookup s m2 = some v) :
    scrLookup s m = some v ∧
      ∀ e ∈ l, ∀ a ∈ e.2.2, e.2.1.output_script a ≠ .ok s := by
  induction l generalizing m with
  | nil =>
    simp only [removeAllEntries, Except.ok.injEq] at h
    subst h
    exact ⟨hl, by simp⟩
  | cons e rest ih =>
    obtain ⟨i, ss, addrs⟩ := e
    simp only [removeAllEntries] at h
    cases hra : removeAddrs ss addrs m with
    | error e2 => rw [hra] at h; cases h
    | ok mm =>
      rw [hra] at h
      obtain ⟨h1, h2⟩ := ih h
      obtain ⟨h3, h4⟩ := removeAddrs_sub hra h1
      refine ⟨h3, ?_⟩
      intro e2 he2
      rcases List.mem_cons.1 he2 with rfl | hmem
      · exact h4
      · exact h2 e2 hmem

theorem removeSigsetsGo_eq_takeWhile (now : Nat) (l : List SigsetEntry)
    (m : ScriptsMap) :
    removeSigsetsGo now l m =
      removeAllEntries
        (l.takeWhile (fun e => decide (e.2.1.deposit_timeout ≤ now))) m := by
  induction l generalizing m with
  | nil => rfl
  | cons e rest ih =>
    obtain ⟨i, ss, addrs⟩ := e
    by_cases hexp : now < ss.deposit_timeout
    · have hp : decide (ss.deposit_timeout ≤ now) = false :=
        decide_eq_false (not_le.2 hexp)
      simp [removeSigsetsGo, hexp, List.takeWhile_cons, hp, removeAllEntries]
    · have hp : decide (ss.deposit_timeout ≤ now) = true :=
        decide_eq_true (not_lt.1 hexp)
      simp only [removeSigsetsGo, if_neg hexp, List.takeWhile_cons, hp]
      cases hra : removeAddrs ss addrs m with
      | error e2 => simp [removeAllEntries, hra]
      | ok mm => simp [removeAllEntries, hra, ih]

theorem mem_takeWhile_of_sorted {p : SigsetEntry → Bool} {l : List SigsetEntry}
    (hs : List.Pairwise (fun x y => x.1 < y.1) l) {i : Nat} {ss : SignatorySet}
    {ad : List Nat} (hmem : (i, ss, ad) ∈ l)
    (hall : ∀ e ∈ l, e.1 ≤ i → p e = true) :
    (i, ss, ad) ∈ l.takeWhile p := by
  induction l with
  | nil => cases hmem
  | cons e rest ih =>
    rcases List.mem_cons.1 hmem with heq | hrest
    · have h1 : e.1 ≤ i := by rw [← heq]
      have hpe : p e = true := hall e (List.mem_cons_self _ _) h1
      rw [List.takeWhile_cons_of_pos hpe, heq]
      exact List.mem_cons_self _ _
    · have hlt : e.1 < i := (List.pairwise_cons.1 hs).1 (i, ss, ad) hrest
      have hpe : p e = true :=
        hall e (List.mem_cons_self _ _) (le_of_lt hlt)
      rw [List.takeWhile_cons_of_pos hpe]
      exact List.mem_cons_of_mem _
        (ih (List.pairwise_cons.1 hs).2 hrest
          (fun e2 he2 => hall e2 (List.mem_cons_of_mem _ he2)))

/-- Claim C3: after `remove_expired()` at time `now`, no script remains
whose owning sigset is expired and precedes (in ascending index order)
every sigset with `deposit_timeout > now`; and the sweep processes
exactly the prefix of sigsets up to the first one whose timeout is
strictly greater than `now` (the `takeWhile` characterisation of the
early break). -/
theorem C3_remove_expired (now : Nat) (w w2 : WatchedScripts) (hinv : WSInv w)
    (h : w.remove_expired now = .ok w2) :
    (∀ s a i ss addrs, scrLookup s w2.scripts = some (a, i) →
      sigLookup i w.sigsets = some (ss, addrs) → ss.deposit_timeout ≤ now →
      ∃ e ∈ w.sigsets, e.1 ≤ i ∧ now < e.2.1.deposit_timeout) ∧
    removeSigsetsGo now w.sigsets w.scripts =
      removeAllEntries
        (w.sigsets.takeWhile (fun e => decide (e.2.1.deposit_timeout ≤ now)))
        w.scripts := by
  obtain ⟨hscr, hsig, hsort⟩ := hinv
  refine ⟨?_, removeSigsetsGo_eq_takeWhile now w.sigsets w.scripts⟩
  intro s a i ss addrs hl hsl hexp
  by_contra hc
  push_neg at hc
  unfold WatchedScripts.remove_expired at h
  cases hgo : removeSigsetsGo now w.sigsets w.scripts with
  | error e => rw [hgo] at h; cases h
  | ok m =>
    rw [hgo] at h
    simp only [Except.ok.injEq] at h
    subst h
    rw [removeSigsetsGo_eq_takeWhile] at hgo
    obtain ⟨hbefore, hnot⟩ := removeAllEntries_sub hgo hl
    have hmemScr : (s, a, i) ∈ w.scripts := scrLookup_mem hbefore
    obtain ⟨ss0, addrs0, hsl0, hain, hout⟩ := hscr (s, a, i) hmemScr
    have heq : (ss0, addrs0) = (ss, addrs) :=
      Option.some.inj (hsl0.symm.trans hsl)
    injection heq with hss haddrs
    subst hss
    subst haddrs
    have hmemSig : (i, ss0, addrs0) ∈ w.sigsets := sigLookup_mem hsl
    have hptrue : ∀ e ∈ w.sigsets, e.1 ≤ i →
        (fun e => decide (e.2.1.deposit_timeout ≤ now)) e = true :=
      fun e he hle => decide_eq_true (hc e he hle)
    have hintake := mem_takeWhile_of_sorted hsort hmemSig hptrue
    exact hnot (i, ss0, addrs0) hintake a hain hout

theorem C3_remove_expired_witness :
    (∀ s a i ss addrs,
      scrLookup s (⟨[], [(0, ssEx, [5])]⟩ : WatchedScripts).scripts = some (a, i) →
      sigLookup i wEx.sigsets = some (ss, addrs) → ss.deposit_timeout ≤ 10 →
      ∃ e ∈ wEx.sigsets, e.1 ≤ i ∧ 10 < e.2.1.deposit_timeout) ∧
    removeSigsetsGo 10 wEx.sigsets wEx.scripts =
      removeAllEntries
        (wEx.sigsets.takeWhile (fun e => decide (e.2.1.deposit_timeout ≤ 10)))
        wEx.scripts :=
  C3_remove_expired 10 wEx ⟨[], [(0, ssEx, [5])]⟩
    (by
      refine ⟨?_, ?_, ?_⟩
      · intro e he
        simp only [wEx, List.mem_singleton] at he
        subst he
        exact ⟨ssEx, [5], rfl, by simp, rfl⟩
      · intro e he a ha
        simp only [wEx, List.mem_singleton] at he
        subst he
        simp only [List.mem_singleton] at ha
        subst ha
        exact ⟨5, rfl⟩
      · simp [wEx])
    rfl

/-- Claim C4: immediately after `WatchedScriptStore::open` the on-disk
lines are exactly one `"<address>,<sigset_index>"` line per stored value
of the in-memory index; and each subsequent `insert` appends exactly one
line if and only if the underlying index insert returned `true`. -/
theorem C4_store_compaction_and_insert :
    (∀ now cps pIdx pAddr showAddr fc st,
      WatchedScriptStore.open now cps pIdx pAddr showAddr fc = some (.ok st) →
      st.file = st.scripts.scripts.map (fun e => formatLine showAddr e.2.1 e.2.2)) ∧
    (∀ showAddr addr ss st st2,
      WatchedScriptStore.insert showAddr st addr ss = .ok st2 →
      ∃ added w, st.scripts.insert addr ss = .ok (added, w) ∧
        st2.scripts = w ∧
        st2.file =
          (if added then st.file ++ [formatLine showAddr addr ss.index]
           else st.file)) := by
  constructor
  · intro now cps pIdx pAddr showAddr fc st h
    unfold WatchedScriptStore.open at h
    cases hml : maybeLoad now cps pIdx pAddr fc with
    | none => rw [hml] at h; simp at h
    | some r =>
      rw [hml] at h
      cases r with
      | error e => simp at h
      | ok w =>
        simp only [Option.some.injEq, Except.ok.injEq] at h
        subst h
        rfl
  · intro showAddr addr ss st st2 h
    unfold WatchedScriptStore.insert at h
    cases hi : st.scripts.insert addr ss with
    | error e => rw [hi] at h; cases h
    | ok p =>
      obtain ⟨added, w⟩ := p
      rw [hi] at h
      simp only [Except.ok.injEq] at h
      subst h
      exact ⟨added, w, rfl, rfl, rfl⟩

theorem C4_store_compaction_and_insert_witness :
    (⟨WatchedScripts.new, []⟩ : WatchedScriptStore).file =
      (⟨WatchedScripts.new, []⟩ : WatchedScriptStore).scripts.scripts.map
        (fun e => formatLine showAddrW e.2.1 e.2.2) ∧
    ∃ added w, stEx.scripts.insert 5 ssEx2 = .ok (added, w) ∧
      (⟨⟨[(5, 5, 7)], [(7, ssEx2, [5])]⟩, [formatLine showAddrW 5 7]⟩ :
        WatchedScriptStore).scripts = w ∧
      (⟨⟨[(5, 5, 7)], [(7, ssEx2, [5])]⟩, [formatLine showAddrW 5 7]⟩ :
        WatchedScriptStore).file =
        (if added then stEx.file ++ [formatLine showAddrW 5 ssEx2.index]
         else stEx.file) :=
  ⟨C4_store_compaction_and_insert.1 0 [] pIdxW pAddrW showAddrW none
      ⟨WatchedScripts.new, []⟩ rfl,
    C4_store_compaction_and_insert.2 showAddrW 5 ssEx2 stEx
      ⟨⟨[(5, 5, 7)], [(7, ssEx2, [5])]⟩, [formatLine showAddrW 5 7]⟩ rfl⟩

/-- Claim C8: during store loading, a line whose sigset index parses but
is not in the fetched map is skipped silently; a line with an
unparseable index, or a known index but unparseable address, produces an
application-level error; and such an error aborts the whole load
(propagating through the remaining lines and through `maybe_load`). -/
theorem C8_store_load_errors :
    (∀ sigsets pIdx pAddr w line first second rest idx,
      splitComma line = first :: second :: rest → pIdx second = some idx →
      bmLookup idx sigsets = none →
      processLine sigsets pIdx pAddr w line = some (.ok w)) ∧
    (∀ sigsets pIdx pAddr w line first second rest,
      splitComma line = first :: second :: rest → pIdx second = none →
      processLine sigsets pIdx pAddr w line =
        some (.error ("Could not parse sigset index"))) ∧
    (∀ sigsets pIdx pAddr w line first second rest idx ss,
      splitComma line = first :: second :: rest → pIdx second = some idx →
      bmLookup idx sigsets = some ss → pAddr first = none →
      processLine sigsets pIdx pAddr w line =
        some (.error ("Could not parse address"))) ∧
    (∀ sigsets pIdx pAddr w pre l post w1 e,
      processLines sigsets pIdx pAddr w pre = some (.ok w1) →
      processLine sigsets pIdx pAddr w1 l = some (.error e) →
      processLines sigsets pIdx pAddr w (pre ++ l :: post) = some (.error e)) ∧
    (∀ now cps pIdx pAddr lines e,
      processLines (buildSigsets cps) pIdx pAddr WatchedScripts.new lines =
        some (.error e) →
      maybeLoad now cps pIdx pAddr (some lines) = some (.error e)) := by
  refine ⟨?_, ?_, ?_, ?_, ?_⟩
  · intro sigsets pIdx pAddr w line first second rest idx hsplit hidx hlook
    simp [processLine, hsplit, hidx, hlook]
  · intro sigsets pIdx pAddr w line first second rest hsplit hidx
    simp [processLine, hsplit, hidx]
  · intro sigsets pIdx pAddr w line first second rest idx ss hsplit hidx hlook haddr
    simp [processLine, hsplit, hidx, hlook, haddr]
  · intro sigsets pIdx pAddr w pre l post w1 e hpre hl
    induction pre generalizing w with
    | nil =>
      simp only [processLines, Option.some.injEq, Except.ok.injEq] at hpre
      subst hpre
      simp [processLines, hl]
    | cons p pre2 ih =>
      simp only [processLines] at hpre
      cases hp : processLine sigsets pIdx pAddr w p with
      | none => rw [hp] at hpre; cases hpre
      | some r =>
        rw [hp] at hpre
        cases r with
        | error e2 => simp at hpre
        | ok w2 =>
          simp only [List.cons_append, processLines, hp]
          exact ih w2 hpre
  · intro now cps pIdx pAddr lines e h
    simp [maybeLoad, h]

theorem C8_store_load_errors_witness :
    processLine [(7, ssEx2)] pIdxW pAddrW WatchedScripts.new
        [Char.ofNat 97, Char.ofNat 44, Char.ofNat 56] =
      some (.error ("Could not parse sigset index")) ∧
    processLine [] pIdxW pAddrW WatchedScripts.new
        [Char.ofNat 97, Char.ofNat 44, Char.ofNat 55] = some (.ok WatchedScripts.new) ∧
    processLine [(7, ssEx2)] pIdxW pAddrW WatchedScripts.new
        [Char.ofNat 98, Char.ofNat 44, Char.ofNat 55] =
      some (.error ("Could not parse address")) ∧
    maybeLoad 0 [] pIdxW pAddrW
        (some [[Char.ofNat 97, Char.ofNat 44, Char.ofNat 56]]) =
      some (.error ("Could not parse sigset index")) :=
  ⟨C8_store_load_errors.2.1 [(7, ssEx2)] pIdxW pAddrW WatchedScripts.new
      _ [Char.ofNat 97] [Char.ofNat 56] [] rfl (by decide),
    C8_store_load_errors.1 [] pIdxW pAddrW WatchedScripts.new
      _ [Char.ofNat 97] [Char.ofNat 55] [] 7 rfl (by decide) rfl,
    C8_store_load_errors.2.2.1 [(7, ssEx2)] pIdxW pAddrW WatchedScripts.new
      _ [Char.ofNat 98] [Char.ofNat 55] [] 7 ssEx2 rfl (by decide) rfl (by decide),
    C8_store_load_errors.2.2.2.2 0 [] pIdxW pAddrW
      [[Char.ofNat 97, Char.ofNat 44, Char.ofNat 56]]
      ("Could not parse sigset index") rfl⟩

/-- Claim C5: `maybe_relay_deposit` returns success without submitting
when the outpoint was already processed; a `relay_deposit` failure whose
message contains either dust-error substring is converted to success;
every other submission error propagates to the caller. -/
theorem C5_maybe_relay_deposit (env : DepositEnv) (tx height blockHash : Nat)
    (out : OutputMatch) :
    (env.processedContains (tx, out.vout) = .ok true →
      maybeRelayDeposit env tx height blockHash out = .ok []) ∧
    (∀ proof tx2 e, env.processedContains (tx, out.vout) = .ok false →
      env.getTxOutProof tx blockHash = .ok proof →
      env.reencodeTx tx = .ok tx2 →
      env.relayDeposit ⟨tx2, height, proof, out.vout, out.sigset_index, out.dest⟩ =
        .error e →
      ((hasSubstr e dustMsg1 || hasSubstr e dustMsg2) = true →
        maybeRelayDeposit env tx height blockHash out =
          .ok [⟨tx2, height, proof, out.vout, out.sigset_index, out.dest⟩]) ∧
      ((hasSubstr e dustMsg1 || hasSubstr e dustMsg2) = false →
        maybeRelayDeposit env tx height blockHash out = .error e)) := by
  constructor
  · intro h
    simp [maybeRelayDeposit, h]
  · intro proof tx2 e hcont hproof henc hrelay
    constructor
    · intro hdust
      simp [maybeRelayDeposit, hcont, hproof, henc, hrelay, hdust]
    · intro hdust
      simp [maybeRelayDeposit, hcont, hproof, henc, hrelay, hdust]

theorem C5_maybe_relay_deposit_witness :
    maybeRelayDeposit envDepA 3 12 99 outW = .ok [] ∧
    maybeRelayDeposit envDepB 3 12 99 outW = .ok [⟨3, 12, 0, 1, 7, 9⟩] ∧
    maybeRelayDeposit envDepC 3 12 99 outW = .error ("boom") :=
  ⟨(C5_maybe_relay_deposit envDepA 3 12 99 outW).1 rfl,
    ((C5_maybe_relay_deposit envDepB 3 12 99 outW).2 0 3
        ("Deposit amount is below minimum") rfl rfl rfl rfl).1 (by decide),
    ((C5_maybe_relay_deposit envDepC 3 12 99 outW).2 0 3 ("boom")
        rfl rfl rfl rfl).2 (by decide)⟩

/-- Claim C6: in the checkpoint broadcast loop, a `send_raw_transaction`
error containing either benign substring is treated as success and the
loop continues with the next transaction; any other error is returned
from the iteration. -/
theorem C6_checkpoint_broadcast (env : CheckpointEnv) (tx : Nat)
    (rest : List Nat) (bytes : Bytes) (henc : env.encodeTx tx = .ok bytes) :
    (∀ r, env.sendRawTransaction bytes = .ok r →
      broadcastTxs env (tx :: rest) = broadcastTxs env rest) ∧
    (∀ e, env.sendRawTransaction bytes = .error e →
      ((hasSubstr e benignMsg1 || hasSubstr e benignMsg2) = true →
        broadcastTxs env (tx :: rest) = broadcastTxs env rest) ∧
      ((hasSubstr e benignMsg1 || hasSubstr e benignMsg2) = false →
        broadcastTxs env (tx :: rest) = .error e)) := by
  constructor
  · intro r hsend
    simp [broadcastTxs, henc, hsend]
  · intro e hsend
    constructor
    · intro hben
      rcases Bool.or_eq_true_iff.1 hben with h1 | h2
      · simp [broadcastTxs, henc, hsend, h1]
      · simp [broadcastTxs, henc, hsend, h2]
    · intro hben
      have ⟨h1, h2⟩ := Bool.or_eq_false_iff.1 hben
      simp [broadcastTxs, henc, hsend, h1, h2]

theorem C6_checkpoint_broadcast_witness :
    (broadcastTxs envCkA (4 :: [9]) = broadcastTxs envCkA [9]) ∧
    (broadcastTxs envCkB (4 :: [9]) = .error ("boom")) :=
  ⟨((C6_checkpoint_broadcast envCkA 4 [9] [] rfl).2
      ("tx bad-txns-inputs-missingorspent") rfl).1 (by decide),
    ((C6_checkpoint_broadcast envCkB 4 [9] [] rfl).2 ("boom") rfl).2 (by decide)⟩

theorem getHeaderBatchGo_spec (env : NodeEnv) (hcons : NodeConsistent env) :
    ∀ fuel cursor B, env.getBlockHeaderInfo cursor.hash = .ok cursor →
      getHeaderBatchGo env fuel cursor = .ok B →
      B.length ≤ fuel ∧
      List.Chain' (fun x y => y.header.prevBlockhash = env.headerHash x.header) B ∧
      (∀ w, B.head? = some w → w.header.prevBlockhash = cursor.hash) := by
  obtain ⟨hA, hB2, hC⟩ := hcons
  intro fuel
  induction fuel with
  | zero =>
    intro cursor B hcur h
    simp only [getHeaderBatchGo, Except.ok.injEq] at h
    subst h
    exact ⟨by simp, by simp, by simp⟩
  | succ fuel ih =>
    intro cursor B hcur h
    simp only [getHeaderBatchGo] at h
    split at h
    · simp only [Except.ok.injEq] at h
      subst h
      exact ⟨by simp, by simp, by simp⟩
    · rename_i n hnext
      split at h
      · cases h
      · rename_i c hinfo
        split at h
        · cases h
        · rename_i hd hhdr
          split at h
          · cases h
          · rename_i rest hgo
            simp only [Except.ok.injEq] at h
            subst h
            have hchash : c.hash = n := hA n c hinfo
            have hcur2 : env.getBlockHeaderInfo c.hash = .ok c := by
              rw [hchash]; exact hinfo
            obtain ⟨hlen, hchain, hhead⟩ := ih c rest hcur2 hgo
            have hprev : hd.prevBlockhash = cursor.hash := by
              refine hC cursor.hash cursor n hd hcur hnext ?_
              rw [← hchash]; exact hhdr
            have hhash : env.headerHash hd = c.hash := hB2 c.hash hd hhdr
            refine ⟨by simpa using hlen, ?_, ?_⟩
            · refine List.chain'_cons'.2 ⟨?_, hchain⟩
              intro y hy
              exact (hhead y hy).trans hhash.symm
            · intro w hw
              simp only [List.head?_cons, Option.some.injEq] at hw
              subst hw
              exact hprev

/-- Claim C9: a batch returned by `get_header_batch` holds at most
`HEADER_BATCH_SIZE = 25` headers, begins at the block after the starting
(common-ancestor) block, and consecutive elements are chain-linked
(each element's `prev_blockhash` is the previous element's hash). -/
theorem C9_get_header_batch (env : NodeEnv) (fromHash : Nat)
    (B : List WrappedHeader) (hcons : NodeConsistent env)
    (h : getHeaderBatch env fromHash = .ok B) :
    B.length ≤ HEADER_BATCH_SIZE ∧
    List.Chain' (fun x y => y.header.prevBlockhash = env.headerHash x.header) B ∧
    (∀ w, B.head? = some w → w.header.prevBlockhash = fromHash) := by
  unfold getHeaderBatch at h
  cases hinfo : env.getBlockHeaderInfo fromHash with
  | error e => rw [hinfo] at h; cases h
  | ok cursor =>
    rw [hinfo] at h
    have hhash : cursor.hash = fromHash := hcons.1 fromHash cursor hinfo
    have hcur : env.getBlockHeaderInfo cursor.hash = .ok cursor := by
      rw [hhash]; exact hinfo
    obtain ⟨h1, h2, h3⟩ :=
      getHeaderBatchGo_spec env hcons HEADER_BATCH_SIZE cursor B hcur h
    exact ⟨h1, h2, fun w hw => by rw [h3 w hw, hhash]⟩

theorem C9_get_header_batch_witness :
    ([⟨1, ⟨0, 0⟩⟩] : List WrappedHeader).length ≤ HEADER_BATCH_SIZE ∧
    List.Chain'
      (fun x y : WrappedHeader =>
        y.header.prevBlockhash = envNodeW.headerHash x.header)
      [⟨1, ⟨0, 0⟩⟩] ∧
    (∀ w, ([⟨1, ⟨0, 0⟩⟩] : List WrappedHeader).head? = some w →
      w.header.prevBlockhash = 0) :=
  C9_get_header_batch envNodeW 0 [⟨1, ⟨0, 0⟩⟩]
    (by
      refine ⟨?_, ?_, ?_⟩
      · intro h i hi
        simp only [envNodeW, Except.ok.injEq] at hi
        subst hi
        rfl
      · intro h b hb
        simp only [envNodeW] at hb
        by_cases h0 : h = 0
        · simp [h0] at hb
        · rw [if_neg h0] at hb
          simp only [Except.ok.injEq] at hb
          subst hb
          simp only [envNodeW]
          omega
      · intro h i n b hi hn hb
        simp only [envNodeW, Except.ok.injEq] at hi
        subst hi
        simp only at hn
        by_cases h0 : h = 0
        · subst h0
          rw [if_pos rfl] at hn
          simp only [Option.some.injEq] at hn
          subst hn
          simp only [envNodeW] at hb
          rw [if_neg (by norm_num)] at hb
          simp only [Except.ok.injEq] at hb
          subst hb
          rfl
        · rw [if_neg h0] at hn
          cases hn)
    rfl
